import Mathlib

/-!
Shallow embedding of `die-net/leakybucket` (`leakybucket.go`) and proofs of
the specification claims about it.

Modelling conventions:
* Go `int64` / `int` values (`tokens`, `updated`, `quantity`, `limit`, `now`,
  `entries`, `MaxEntries`) are modelled as `Int`; `uint64` keys as `Nat`.
* The Go map `map[uint64]entry` is modelled as an association list with
  unique keys; Go's (unspecified) map iteration order is realised as the
  list order, and `lb.cache[k] = e` as replace-in-place or append.
* `time.Now()` is external input: the facades take `now` explicitly.
-/

set_option autoImplicit false
set_option linter.unnecessarySeqFocus false

namespace LeakyBucket

/-- Constant `DrainPerSecond` from the source. -/
def DrainPerSecond : Int := 1000000000

/-- Constant `gcScanEntries` from the source (used as a loop bound). -/
def gcScanEntries : Nat := 1000

/-- Constant `gcMustRemoveEntries` from the source. -/
def gcMustRemoveEntries : Int := 100

/-- The `entry` struct: token count and last-update time (unix nanoseconds). -/
structure Entry where
  tokens : Int
  updated : Int
  deriving DecidableEq

/-- Method `entry.update(now)`: drain one token per elapsed nanosecond, clamping the
elapsed time and the resulting token count at zero. -/
def Entry.update (e : Entry) (now : Int) : Entry :=
  let s := now - e.updated
  let s := if s < 0 then 0 else s
  let t := e.tokens - s
  let t := if t < 0 then 0 else t
  { tokens := t, updated := now }

/-- The bucket table `map[uint64]entry`, as an association list. -/
abbrev Table := List (Nat × Entry)

/-- Map lookup `e, exists := lb.cache[k]`. -/
def lookup : Table → Nat → Option Entry
  | [], _ => none
  | (k', e) :: rest, k => if k' = k then some e else lookup rest k

/-- Map assignment `lb.cache[k] = e`: replace in place, or append when absent. -/
def store : Table → Nat → Entry → Table
  | [], k, e => [(k, e)]
  | (k', e') :: rest, k, e =>
    if k' = k then (k, e) :: rest else (k', e') :: store rest k e

/-- The `Cache` struct (minus the mutex, which only serialises calls). -/
structure Cache where
  maxEntries : Int
  table : Table
  entries : Int
  deriving DecidableEq

/-- Constructor `New(maxEntries)`: `nil` (here `none`) when `maxEntries <= 0`. -/
def New (maxEntries : Int) : Option Cache :=
  if maxEntries ≤ 0 then none
  else some { maxEntries := maxEntries, table := [], entries := 0 }

/-- Body of `scan`'s `for k, e := range lb.cache` loop: starting at loop
counter `n`, update each visited entry to `now`, delete it when its decayed
token count is `≤ 0`, write it back otherwise, and stop once `n+1 ≥ count`
entries have been visited (Go increments `n` before testing `n >= count`).
Returns the new table and the number of entries removed. -/
def scanAux (now : Int) (count : Nat) : Table → Nat → Table × Nat
  | [], _ => ([], 0)
  | (k, e) :: rest, n =>
    let e := Entry.update e now
    if e.tokens ≤ 0 then
      if n + 1 ≥ count then (rest, 1)
      else
        let r := scanAux now count rest (n + 1)
        (r.1, r.2 + 1)
    else
      if n + 1 ≥ count then ((k, e) :: rest, 0)
      else
        let r := scanAux now count rest (n + 1)
        ((k, e) :: r.1, r.2)

/-- Method `lb.scan(now, count)`: returns the updated cache and the Go return value
`lb.entries - start`, i.e. the (non-positive) change in the entry count. -/
def Cache.scanStep (lb : Cache) (now : Int) (count : Nat) : Cache × Int :=
  let r := scanAux now count lb.table 0
  ({ lb with table := r.1, entries := lb.entries - (r.2 : Int) },
    (lb.entries - (r.2 : Int)) - lb.entries)

/-- Phase 3 of `gc`: `for k := range lb.cache { delete; lb.entries--; left--;
if left <= 0 { return } }`, deleting in iteration (list) order. Returns the
remaining table and the number of entries deleted. -/
def forceDelete : Table → Int → Table × Nat
  | [], _ => ([], 0)
  | _ :: rest, left =>
    if left - 1 ≤ 0 then (rest, 1)
    else
      let r := forceDelete rest (left - 1)
      (r.1, r.2 + 1)

/-- The initial working counter `left := lb.entries - (lb.MaxEntries -
gcMustRemoveEntries)` that `gc` starts from. -/
def Cache.gcLeft0 (lb : Cache) : Int :=
  lb.entries - (lb.maxEntries - gcMustRemoveEntries)

/-- The value of `left` after `gc`'s phase-1 `left -= lb.scan(now, gcScanEntries)`. -/
def Cache.gcLeftAfterPhase1 (lb : Cache) (now : Int) : Int :=
  lb.gcLeft0 - (lb.scanStep now gcScanEntries).2

/-- Method `lb.gc(now)`: two bounded scans for drained buckets, then forced deletion. -/
def Cache.gc (lb : Cache) (now : Int) : Cache :=
  let left := lb.gcLeft0
  let s1 := lb.scanStep now gcScanEntries
  let left := left - s1.2
  if left ≤ 0 then s1.1
  else
    let s2 := s1.1.scanStep now gcScanEntries
    let left := left - s2.2
    if left ≤ 0 then s2.1
    else
      let r := forceDelete s2.1.table left
      { s2.1 with table := r.1, entries := s2.1.entries - (r.2 : Int) }

/-- Lines 83–97 of `lb.put`: look up and decay (or synthesize) the entry,
test admission, conditionally add the quantity, write the entry back, and
increment `entries` for a new key — everything except the `gc` trigger.
Returns `((tokens, exists, ok), cache')`. -/
def Cache.putCore (lb : Cache) (k : Nat) (quantity limit now : Int) :
    (Int × Bool × Bool) × Cache :=
  let p : Entry × Bool :=
    match lookup lb.table k with
    | some e => (e.update now, true)
    | none => ({ tokens := 0, updated := now }, false)
  let ok : Bool := decide (p.1.tokens + quantity ≤ limit)
  let e := if ok then { p.1 with tokens := p.1.tokens + quantity } else p.1
  let lb1 := { lb with
    table := store lb.table k e,
    entries := if p.2 then lb.entries else lb.entries + 1 }
  ((e.tokens, p.2, ok), lb1)

/-- Method `lb.put(k, quantity, limit, now)`: `putCore`, then — for a new key that
pushed `entries` past `MaxEntries` — the inline `gc`. -/
def Cache.put (lb : Cache) (k : Nat) (quantity limit now : Int) :
    (Int × Bool × Bool) × Cache :=
  let r := lb.putCore k quantity limit now
  if r.1.2.1 then r
  else if r.2.maxEntries < r.2.entries then (r.1, r.2.gc now)
  else r

/-- FNV-1a 64-bit offset basis. -/
def fnvOffsetBasis64 : Nat := 14695981039346656037

/-- FNV-1a 64-bit prime. -/
def fnvPrime64 : Nat := 1099511628211

/-- FNV-1a 64-bit hash of a byte sequence (`hash/fnv`'s `New64a`). -/
def fnv1a64 (bytes : List Nat) : Nat :=
  bytes.foldl (fun h b => ((h ^^^ (b % 256)) * fnvPrime64) % 2 ^ 64)
    fnvOffsetBasis64

/-- Function `key(ks)`: hash a string (its byte sequence) to a `uint64` key. -/
def key (ks : List Nat) : Nat := fnv1a64 ks

/-- Facade `lb.Put(k, quantity, limit)`, with the `time.Now()` reading `now`
made an explicit argument. -/
def Cache.Put (lb : Cache) (k : Nat) (quantity limit now : Int) :
    (Int × Bool × Bool) × Cache :=
  lb.put k quantity limit now

/-- Facade `lb.PutString(ks, quantity, limit)`: hash the string, then `put`. -/
def Cache.PutString (lb : Cache) (ks : List Nat) (quantity limit now : Int) :
    (Int × Bool × Bool) × Cache :=
  let k := key ks
  lb.put k quantity limit now

/-- The token count `put` compares against the limit: the entry's count after
decaying to `now`, or `0` for an absent key. -/
def Cache.decayedTokens (lb : Cache) (k : Nat) (now : Int) : Int :=
  match lookup lb.table k with
  | some e => (e.update now).tokens
  | none => 0

/-- The keys of a table, in iteration order. -/
def keysOf (t : Table) : List Nat := t.map Prod.fst

/-- Well-formedness of a cache state: the `entries` counter equals the number
of live mappings, and keys are unique. -/
def Inv (lb : Cache) : Prop :=
  lb.entries = (lb.table.length : Int) ∧ (keysOf lb.table).Nodup

instance (lb : Cache) : Decidable (Inv lb) := by
  unfold Inv; infer_instance

/-- Run a sequence of `put` operations `(k, quantity, limit, now)`. -/
def runPuts (lb : Cache) (ops : List (Nat × Int × Int × Int)) : Cache :=
  ops.foldl (fun s op => (s.put op.1 op.2.1 op.2.2.1 op.2.2.2).2) lb

/-- A cache with one entry that decays to zero by time 10 (concrete state for
exercising the phase-1 scan of `gc`). -/
def scanDropCache : Cache :=
  { maxEntries := 100, table := [(1, { tokens := 5, updated := 0 })], entries := 1 }

/-- A cache over capacity (`MaxEntries = 1`) holding two entries that never
decay to zero by time 0 (concrete state for exercising forced deletion). -/
def overCapCache : Cache :=
  { maxEntries := 1,
    table := [(1, { tokens := 10, updated := 0 }), (2, { tokens := 10, updated := 0 })],
    entries := 2 }

/-! ### Helper lemmas about the table operations -/

theorem lookup_store_self (t : Table) (k : Nat) (e : Entry) :
    lookup (store t k e) k = some e := by
  induction t with
  | nil => simp [store, lookup]
  | cons p rest ih =>
    obtain ⟨k', e'⟩ := p
    by_cases h : k' = k
    · simp [store, lookup, h]
    · simp [store, lookup, h, ih]

theorem store_of_lookup_none (t : Table) (k : Nat) (e : Entry)
    (h : lookup t k = none) : store t k e = t ++ [(k, e)] := by
  induction t with
  | nil => simp [store]
  | cons p rest ih =>
    obtain ⟨k', e'⟩ := p
    by_cases hk : k' = k
    · simp [lookup, hk] at h
    · simp only [lookup, hk, if_neg, ite_false] at h
      simp [store, hk, ih h]

theorem store_length (t : Table) (k : Nat) (e : Entry) :
    (store t k e).length
      = if (lookup t k).isSome then t.length else t.length + 1 := by
  induction t with
  | nil => simp [store, lookup]
  | cons p rest ih =>
    obtain ⟨k', e'⟩ := p
    by_cases hk : k' = k
    · simp [store, lookup, hk]
    · simp only [store, lookup, hk, ite_false, List.length_cons, ih]
      split_ifs <;> rfl

theorem keysOf_store (t : Table) (k : Nat) (e : Entry) :
    keysOf (store t k e)
      = if (lookup t k).isSome then keysOf t else keysOf t ++ [k] := by
  induction t with
  | nil => simp [store, lookup, keysOf]
  | cons p rest ih =>
    obtain ⟨k', e'⟩ := p
    by_cases hk : k' = k
    · simp [store, lookup, hk, keysOf]
    · simp only [store, lookup, hk, ite_false, keysOf, List.map_cons] at *
      rw [ih]
      split_ifs <;> rfl

theorem lookup_eq_none_iff (t : Table) (k : Nat) :
    lookup t k = none ↔ k ∉ keysOf t := by
  induction t with
  | nil => simp [lookup, keysOf]
  | cons p rest ih =>
    obtain ⟨k', e'⟩ := p
    by_cases hk : k' = k
    · subst hk
      simp [lookup, keysOf]
    · simp [lookup, hk, keysOf, ih, Ne.symm hk]

/-! ### Helper lemmas about `scan` -/

theorem scanAux_length (now : Int) (count : Nat) (t : Table) (n : Nat) :
    (scanAux now count t n).1.length + (scanAux now count t n).2 = t.length := by
  induction t generalizing n with
  | nil => simp [scanAux]
  | cons p rest ih =>
    obtain ⟨k, e⟩ := p
    simp only [scanAux]
    by_cases hz : (Entry.update e now).tokens ≤ 0 <;>
      by_cases hc : n + 1 ≥ count <;>
      simp only [hz, hc, if_pos, if_neg, ite_true, ite_false] <;>
      simp [List.length_cons]
    · have := ih (n + 1)
      omega
    · have := ih (n + 1)
      omega

theorem scanAux_keys_sublist (now : Int) (count : Nat) (t : Table) (n : Nat) :
    (keysOf (scanAux now count t n).1).Sublist (keysOf t) := by
  induction t generalizing n with
  | nil => simp [scanAux]
  | cons p rest ih =>
    obtain ⟨k, e⟩ := p
    simp only [scanAux]
    by_cases hz : (Entry.update e now).tokens ≤ 0 <;>
      by_cases hc : n + 1 ≥ count <;>
      simp only [hz, hc, if_pos, if_neg, ite_true, ite_false]
    · simp [keysOf, List.sublist_cons_self]
    · exact List.Sublist.trans (ih (n + 1)) (List.sublist_cons_self _ _)
    · simp [keysOf]
    · simpa [keysOf] using List.Sublist.cons₂ k (ih (n + 1))

theorem scanStep_spec (lb : Cache) (now : Int) (count : Nat) (hInv : Inv lb) :
    Inv (lb.scanStep now count).1
    ∧ (lb.scanStep now count).1.maxEntries = lb.maxEntries
    ∧ (lb.scanStep now count).1.entries
        = lb.entries - ((scanAux now count lb.table 0).2 : Int)
    ∧ (lb.scanStep now count).2 = -((scanAux now count lb.table 0).2 : Int) := by
  obtain ⟨hlen, hnd⟩ := hInv
  have hl := scanAux_length now count lb.table 0
  refine ⟨⟨?_, ?_⟩, rfl, rfl, by simp [Cache.scanStep]⟩
  · simp only [Cache.scanStep]
    omega
  · exact (scanAux_keys_sublist now count lb.table 0).nodup hnd

/-! ### Helper lemmas about forced deletion -/

theorem forceDelete_spec (t : Table) (left : Int) (h : 1 ≤ left) :
    (forceDelete t left).2 = min left.toNat t.length
    ∧ (forceDelete t left).1 = t.drop (forceDelete t left).2 := by
  induction t generalizing left with
  | nil => simp [forceDelete]
  | cons p rest ih =>
    by_cases h1 : left - 1 ≤ 0
    · have : left = 1 := by omega
      subst this
      simp [forceDelete]
    · have h2 : 1 ≤ left - 1 := by omega
      obtain ⟨ha, hb⟩ := ih (left - 1) h2
      simp only [forceDelete, h1, if_neg, ite_false]
      constructor
      · simp only [List.length_cons, ha]
        omega
      · simp [hb]

/-! ### Helper lemmas about `gc` -/

theorem gc_inv (lb : Cache) (now : Int) (hInv : Inv lb) :
    Inv (lb.gc now) ∧ (lb.gc now).maxEntries = lb.maxEntries
    ∧ (lb.gc now).entries ≤ lb.entries := by
  obtain ⟨hI1, hM1, hE1, hR1⟩ := scanStep_spec lb now gcScanEntries hInv
  obtain ⟨hI2, hM2, hE2, hR2⟩ :=
    scanStep_spec (lb.scanStep now gcScanEntries).1 now gcScanEntries hI1
  simp only [Cache.gc]
  split_ifs with hA hB
  · exact ⟨hI1, hM1, by omega⟩
  · exact ⟨hI2, by rw [hM2, hM1], by omega⟩
  · obtain ⟨hIlen, hInd⟩ := hI2
    have hleft : 1 ≤ lb.gcLeft0 - (lb.scanStep now gcScanEntries).2
        - ((lb.scanStep now gcScanEntries).1.scanStep now gcScanEntries).2 := by
      omega
    obtain ⟨hfd2, hfd1⟩ := forceDelete_spec
      ((lb.scanStep now gcScanEntries).1.scanStep now gcScanEntries).1.table _ hleft
    refine ⟨⟨?_, ?_⟩, by rw [hM2, hM1], by simp only []; omega⟩
    · simp only [hfd1, hfd2, List.length_drop]
      omega
    · simp only [hfd1]
      have : keysOf
          ((((lb.scanStep now gcScanEntries).1.scanStep now gcScanEntries).1.table).drop
            (forceDelete
              ((lb.scanStep now gcScanEntries).1.scanStep now gcScanEntries).1.table
              (lb.gcLeft0 - (lb.scanStep now gcScanEntries).2
                - ((lb.scanStep now gcScanEntries).1.scanStep now gcScanEntries).2)).2)
          = (keysOf
              (((lb.scanStep now gcScanEntries).1.scanStep now gcScanEntries).1.table)).drop
            (forceDelete
              ((lb.scanStep now gcScanEntries).1.scanStep now gcScanEntries).1.table
              (lb.gcLeft0 - (lb.scanStep now gcScanEntries).2
                - ((lb.scanStep now gcScanEntries).1.scanStep now gcScanEntries).2)).2 := by
        simp [keysOf, List.map_drop]
      rw [this]
      exact (List.drop_sublist _ _).nodup hInd

theorem gc_bound (lb : Cache) (now : Int) (hInv : Inv lb)
    (hgt : lb.maxEntries < lb.entries) :
    (lb.gc now).entries ≤ max (lb.maxEntries - gcMustRemoveEntries) 0 := by
  obtain ⟨hI1, hM1, hE1, hR1⟩ := scanStep_spec lb now gcScanEntries hInv
  obtain ⟨hI2, hM2, hE2, hR2⟩ :=
    scanStep_spec (lb.scanStep now gcScanEntries).1 now gcScanEntries hI1
  have hL0 : lb.gcLeft0 = lb.entries - (lb.maxEntries - gcMustRemoveEntries) := rfl
  have hC : gcMustRemoveEntries = 100 := rfl
  simp only [Cache.gc]
  split_ifs with hA hB
  · exact absurd hA (by omega)
  · exact absurd hB (by omega)
  · obtain ⟨hIlen, hInd⟩ := hI2
    have hleft : 1 ≤ lb.gcLeft0 - (lb.scanStep now gcScanEntries).2
        - ((lb.scanStep now gcScanEntries).1.scanStep now gcScanEntries).2 := by
      omega
    obtain ⟨hfd2, hfd1⟩ := forceDelete_spec
      ((lb.scanStep now gcScanEntries).1.scanStep now gcScanEntries).1.table _ hleft
    simp only [hfd2]
    omega

/-! ### Helper lemmas about `put` -/

theorem put_fst (lb : Cache) (k : Nat) (q l now : Int) :
    (lb.put k q l now).1 = (lb.putCore k q l now).1 := by
  simp only [Cache.put]
  split_ifs <;> rfl

theorem putCore_maxEntries (lb : Cache) (k : Nat) (q l now : Int) :
    (lb.putCore k q l now).2.maxEntries = lb.maxEntries := rfl

theorem putCore_entries (lb : Cache) (k : Nat) (q l now : Int) :
    (lb.putCore k q l now).2.entries
      = if (lookup lb.table k).isSome then lb.entries else lb.entries + 1 := by
  cases h : lookup lb.table k <;> simp [Cache.putCore, h]

theorem putCore_exists_flag (lb : Cache) (k : Nat) (q l now : Int) :
    (lb.putCore k q l now).1.2.1 = (lookup lb.table k).isSome := by
  cases h : lookup lb.table k <;> simp [Cache.putCore, h]

theorem putCore_table (lb : Cache) (k : Nat) (q l now : Int) :
    ∃ e, (lb.putCore k q l now).2.table = store lb.table k e := ⟨_, rfl⟩

theorem putCore_inv (lb : Cache) (k : Nat) (q l now : Int) (hInv : Inv lb) :
    Inv (lb.putCore k q l now).2 := by
  obtain ⟨hlen, hnd⟩ := hInv
  obtain ⟨e, htab⟩ := putCore_table lb k q l now
  constructor
  · rw [putCore_entries, htab, store_length]
    cases hlk : (lookup lb.table k).isSome <;> simp <;> omega
  · rw [htab, keysOf_store]
    cases hlk : (lookup lb.table k).isSome
    · have hno : lookup lb.table k = none := by
        cases hl : lookup lb.table k
        · rfl
        · rw [hl] at hlk
          simp at hlk
      have hk : k ∉ keysOf lb.table := (lookup_eq_none_iff lb.table k).mp hno
      simp only [Bool.false_eq_true, if_false]
      exact List.Nodup.append hnd (List.nodup_singleton k)
        (by simpa [List.disjoint_singleton] using hk)
    · simpa using hnd

theorem put_spec (lb : Cache) (k : Nat) (q l now : Int) (hInv : Inv lb)
    (h0 : 0 < lb.maxEntries) (hle : lb.entries ≤ lb.maxEntries) :
    Inv (lb.put k q l now).2
    ∧ (lb.put k q l now).2.maxEntries = lb.maxEntries
    ∧ (lb.put k q l now).2.entries ≤ lb.maxEntries := by
  have hIc := putCore_inv lb k q l now hInv
  have hMc := putCore_maxEntries lb k q l now
  have hEc := putCore_entries lb k q l now
  have hXc := putCore_exists_flag lb k q l now
  simp only [Cache.put]
  split_ifs with hex hgt <;> (try dsimp only)
  · rw [hXc] at hex
    rw [hex] at hEc
    simp only [if_pos] at hEc
    exact ⟨hIc, hMc, by omega⟩
  · obtain ⟨hIg, hMg, hEg⟩ := gc_inv (lb.putCore k q l now).2 now hIc
    have hb := gc_bound (lb.putCore k q l now).2 now hIc hgt
    have hC : gcMustRemoveEntries = 100 := rfl
    rw [hMc] at hb
    exact ⟨hIg, by rw [hMg, hMc], by omega⟩
  · rw [hMc] at hgt
    exact ⟨hIc, hMc, by omega⟩

theorem runPuts_cons (lb : Cache) (op : Nat × Int × Int × Int)
    (ops : List (Nat × Int × Int × Int)) :
    runPuts lb (op :: ops) = runPuts (lb.put op.1 op.2.1 op.2.2.1 op.2.2.2).2 ops := rfl

theorem runPuts_spec (ops : List (Nat × Int × Int × Int)) (lb : Cache)
    (hInv : Inv lb) (h0 : 0 < lb.maxEntries) (hle : lb.entries ≤ lb.maxEntries) :
    Inv (runPuts lb ops) ∧ (runPuts lb ops).maxEntries = lb.maxEntries
    ∧ (runPuts lb ops).entries ≤ (runPuts lb ops).maxEntries := by
  induction ops generalizing lb with
  | nil => exact ⟨hInv, rfl, hle⟩
  | cons op ops ih =>
    obtain ⟨hI, hM, hE⟩ := put_spec lb op.1 op.2.1 op.2.2.1 op.2.2.2 hInv h0 hle
    rw [runPuts_cons]
    obtain ⟨hI2, hM2, hE2⟩ := ih _ hI (by rw [hM]; exact h0) (by rw [hM]; exact hE)
    exact ⟨hI2, by rw [hM2, hM], hE2⟩

theorem New_eq_some (m : Int) (c : Cache) (h : New m = some c) :
    0 < m ∧ c = { maxEntries := m, table := [], entries := 0 } := by
  by_cases hm : m ≤ 0
  · simp [New, hm] at h
  · simp only [New, hm, if_neg, ite_false] at h
    exact ⟨by omega, (Option.some.inj h).symm⟩

/-! ### Characterization of the values returned and stored by `put` -/

theorem update_updated (e : Entry) (now : Int) : (e.update now).updated = now := rfl

theorem putCore_ok_flag (lb : Cache) (k : Nat) (q l now : Int) :
    (lb.putCore k q l now).1.2.2 = decide (lb.decayedTokens k now + q ≤ l) := by
  cases h : lookup lb.table k <;>
    simp [Cache.putCore, Cache.decayedTokens, h]

theorem putCore_tokens (lb : Cache) (k : Nat) (q l now : Int) :
    (lb.putCore k q l now).1.1
      = if lb.decayedTokens k now + q ≤ l
          then lb.decayedTokens k now + q else lb.decayedTokens k now := by
  cases h : lookup lb.table k <;>
    simp only [Cache.putCore, Cache.decayedTokens, h] <;>
    split_ifs <;> simp_all <;> omega

theorem putCore_lookup (lb : Cache) (k : Nat) (q l now : Int) :
    lookup (lb.putCore k q l now).2.table k
      = some { tokens := (lb.putCore k q l now).1.1, updated := now } := by
  cases h : lookup lb.table k <;>
    simp [Cache.putCore, h, lookup_store_self] <;>
    split_ifs <;> simp [Entry.update]

/-! ### Claim theorems -/

/-- C2: advancing an entry with tokens `T` last updated at `t0` to time `now`
yields tokens `max 0 (T - max 0 (now - t0))` and timestamp `now`; for
`now < t0` the token count is the same as for zero elapsed time (no negative
drain, no token gain). `Entry.update` is a Lean function, hence deterministic
in `(e, now)`. -/
theorem decay_correct (e : Entry) (now : Int) :
    e.update now
      = { tokens := max 0 (e.tokens - max 0 (now - e.updated)), updated := now }
    ∧ (now < e.updated →
        (e.update now).tokens = (e.update e.updated).tokens) := by
  constructor
  · simp only [Entry.update, Entry.mk.injEq]
    refine ⟨?_, trivial⟩
    split_ifs <;> omega
  · intro h
    simp only [Entry.update]
    split_ifs <;> omega

/-- Witness for `decay_correct` at `e = ⟨5, 10⟩`, `now = 3 < 10`. -/
theorem decay_correct_witness :
    ((3 : Int) < (10 : Int))
    ∧ (Entry.update { tokens := 5, updated := 10 } 3).tokens
        = (Entry.update { tokens := 5, updated := 10 } 10).tokens :=
  ⟨by decide, (decay_correct { tokens := 5, updated := 10 } 3).2 (by decide)⟩

/-- C7 as stated is false: for an entry with a negative token count (reachable
via a negative quantity, cf. C9), `update` at the entry's own timestamp clamps
the count to `0` and is not the identity. -/
theorem advance_id_counterexample :
    Entry.update { tokens := -1, updated := 0 } 0
      ≠ ({ tokens := -1, updated := 0 } : Entry) := by
  decide

/-- C7 amended: for every entry whose token count is nonnegative, advancing
to its own last-update time is the identity. -/
theorem advance_id_nonneg (e : Entry) (h : 0 ≤ e.tokens) :
    e.update e.updated = e := by
  obtain ⟨t, u⟩ := e
  simp only [Entry.update, Entry.mk.injEq]
  simp only at h
  refine ⟨?_, trivial⟩
  split_ifs <;> omega

/-- Witness for `advance_id_nonneg` at `e = ⟨5, 3⟩`. -/
theorem advance_id_nonneg_witness :
    ((0 : Int) ≤ (5 : Int))
    ∧ Entry.update { tokens := 5, updated := 3 } 3
        = ({ tokens := 5, updated := 3 } : Entry) :=
  ⟨by decide, advance_id_nonneg { tokens := 5, updated := 3 } (by decide)⟩

/-- C8: `PutString ks` at time `now` returns exactly what `Put` at the FNV-1a
64-bit hash `key ks` returns at the same time, with the identical cache
state. -/
theorem putString_eq_put_hashed (lb : Cache) (ks : List Nat) (q l now : Int) :
    lb.PutString ks q l now = lb.Put (key ks) q l now := rfl

/-- C1: `put(k, q, limit, now)` admits iff `decayed_tokens + q ≤ limit`; it
returns `decayed_tokens + q` on admission and `decayed_tokens` on rejection;
and the decayed, possibly incremented entry with `updated = now` is written
back to the table (the state after line 94 of the source, on which the
optional inline `gc` then runs). -/
theorem put_admission (lb : Cache) (k : Nat) (q l now : Int) :
    ((lb.put k q l now).1.2.2 = true ↔ lb.decayedTokens k now + q ≤ l)
    ∧ (lb.put k q l now).1.1
        = (if lb.decayedTokens k now + q ≤ l
            then lb.decayedTokens k now + q else lb.decayedTokens k now)
    ∧ lookup (lb.putCore k q l now).2.table k
        = some { tokens := (lb.put k q l now).1.1, updated := now } := by
  rw [put_fst, putCore_lookup, putCore_ok_flag, putCore_tokens]
  refine ⟨?_, rfl, rfl⟩
  simp

/-- C9: `put` does not validate `quantity`: with `q < 0` the admission test is
still just `decayed + q ≤ limit`, an admitted negative quantity stores
`decayed + q` — possibly strictly negative — in the table, and such a state
is reachable (e.g. `put 0 (-5) 0 0` on a fresh cache); the next decay clamps
the negative count to `0`. -/
theorem put_no_quantity_validation (lb : Cache) (k : Nat) (q l now : Int)
    (_hq : q < 0) :
    ((lb.put k q l now).1.2.2 = true ↔ lb.decayedTokens k now + q ≤ l)
    ∧ ((lb.put k q l now).1.2.2 = true →
        lookup (lb.putCore k q l now).2.table k
          = some { tokens := lb.decayedTokens k now + q, updated := now })
    ∧ (∃ c : Cache, New 10 = some c
        ∧ lookup ((c.put 0 (-5) 0 0).2.table) 0
            = some { tokens := -5, updated := 0 }
        ∧ ((-5 : Int) < 0)
        ∧ (Entry.update { tokens := -5, updated := 0 } 1).tokens = 0) := by
  refine ⟨?_, ?_, ?_⟩
  · rw [put_fst, putCore_ok_flag]
    simp
  · intro hok
    rw [put_fst, putCore_ok_flag] at hok
    simp only [decide_eq_true_eq] at hok
    rw [putCore_lookup, putCore_tokens, if_pos hok]
  · exact ⟨{ maxEntries := 10, table := [], entries := 0 },
      by decide, by decide, by decide, by decide⟩

/-- Witness for `put_no_quantity_validation` on the empty cache with
`q = -5 < 0`, `limit = 0`: the call is admitted since `0 + (-5) ≤ 0`. -/
theorem put_no_quantity_validation_witness :
    ((-5 : Int) < 0)
    ∧ ((({ maxEntries := 10, table := [], entries := 0 } : Cache).put
          0 (-5) 0 0).1.2.2 = true
        ↔ ({ maxEntries := 10, table := [], entries := 0 } : Cache).decayedTokens
            0 0 + (-5) ≤ 0) :=
  ⟨by decide,
    (put_no_quantity_validation { maxEntries := 10, table := [], entries := 0 }
      0 (-5) 0 0 (by decide)).1⟩

/-- C10: from `New 1`, after inserting key `5`, a `put` of the absent key `7`
is admitted and returns `(50, existed := false, admitted := true)`, yet the
inline `gc` it triggers force-deletes the whole table, so key `7` is absent
from the table immediately after the call. -/
theorem gc_can_evict_inserted_key :
    New 1 = some { maxEntries := 1, table := [], entries := 0 }
    ∧ (runPuts { maxEntries := 1, table := [], entries := 0 }
        [(5, 100, 1000, 0)]).entries
      = (runPuts { maxEntries := 1, table := [], entries := 0 }
        [(5, 100, 1000, 0)]).maxEntries
    ∧ lookup (runPuts { maxEntries := 1, table := [], entries := 0 }
        [(5, 100, 1000, 0)]).table 7 = none
    ∧ ((runPuts { maxEntries := 1, table := [], entries := 0 }
        [(5, 100, 1000, 0)]).put 7 50 1000 0).1 = (50, false, true)
    ∧ lookup ((runPuts { maxEntries := 1, table := [], entries := 0 }
        [(5, 100, 1000, 0)]).put 7 50 1000 0).2.table 7 = none := by
  decide

theorem put_inv (lb : Cache) (k : Nat) (q l now : Int) (hInv : Inv lb) :
    Inv (lb.put k q l now).2 := by
  have hIc := putCore_inv lb k q l now hInv
  simp only [Cache.put]
  split_ifs with hex hgt <;> (try dsimp only)
  · exact hIc
  · exact (gc_inv _ now hIc).1
  · exact hIc

/-- C3: starting from any cache built by `New` (so `maxEntries > 0`), after
any finite sequence of `put` operations the entry count is at most
`MaxEntries`. Since the operation list is arbitrary, this bounds the count at
every point between operations; the inline `gc` restores the bound within the
same `put` whenever an insertion exceeds it. -/
theorem capacity_bound (m : Int) (c : Cache) (hc : New m = some c)
    (ops : List (Nat × Int × Int × Int)) :
    (runPuts c ops).entries ≤ m := by
  obtain ⟨hm, rfl⟩ := New_eq_some m c hc
  have hInv : Inv { maxEntries := m, table := [], entries := 0 } :=
    ⟨by simp, by simp [keysOf]⟩
  obtain ⟨hI, hM, hE⟩ := runPuts_spec ops _ hInv hm (by simpa using hm.le)
  rw [hM] at hE
  exact hE

/-- Witness for `capacity_bound`: `New 1` followed by two inserts (the second
triggers `gc`) leaves at most one entry. -/
theorem capacity_bound_witness :
    New 1 = some { maxEntries := 1, table := [], entries := 0 }
    ∧ (runPuts { maxEntries := 1, table := [], entries := 0 }
        [(0, 5, 10, 0), (1, 5, 10, 0)]).entries ≤ 1 :=
  ⟨by decide, capacity_bound 1 { maxEntries := 1, table := [], entries := 0 }
    (by decide) [(0, 5, 10, 0), (1, 5, 10, 0)]⟩

/-- C4: the `entries` counter equals the number of live mappings (with unique
keys) in every state reachable from `New` by `put` operations, and each
individual operation — `put`, `gc`, `scan` — preserves this equality. -/
theorem entries_eq_table_size (m : Int) (c : Cache) (hc : New m = some c) :
    (∀ ops, Inv (runPuts c ops))
    ∧ (∀ (lb : Cache) (k : Nat) (q l now : Int), Inv lb →
        Inv (lb.put k q l now).2)
    ∧ (∀ (lb : Cache) (now : Int), Inv lb → Inv (lb.gc now))
    ∧ (∀ (lb : Cache) (now : Int) (count : Nat), Inv lb →
        Inv (lb.scanStep now count).1) := by
  obtain ⟨hm, rfl⟩ := New_eq_some m c hc
  refine ⟨?_, ?_, ?_, ?_⟩
  · intro ops
    have hInv : Inv { maxEntries := m, table := [], entries := 0 } :=
      ⟨by simp, by simp [keysOf]⟩
    exact (runPuts_spec ops _ hInv hm (by simpa using hm.le)).1
  · exact fun lb k q l now h => put_inv lb k q l now h
  · exact fun lb now h => (gc_inv lb now h).1
  · exact fun lb now count h => (scanStep_spec lb now count h).1

/-- Witness for `entries_eq_table_size` from `New 1` after one insert. -/
theorem entries_eq_table_size_witness :
    New 1 = some { maxEntries := 1, table := [], entries := 0 }
    ∧ Inv (runPuts { maxEntries := 1, table := [], entries := 0 }
        [(0, 5, 10, 0)]) :=
  ⟨by decide,
    (entries_eq_table_size 1 { maxEntries := 1, table := [], entries := 0 }
      (by decide)).1 [(0, 5, 10, 0)]⟩

/-- C5 as stated is false on the code: in a single-entry cache whose entry
decays to zero, the phase-1 scan removes one entry, yet `left` after phase 1
is `gcLeft0 + 1`, not `gcLeft0 - 1` — `scan` returns the (non-positive)
change `lb.entries - start`, and `gc` subtracts that change, so removals
increase `left`. -/
theorem gc_left_counterexample :
    (scanAux 10 gcScanEntries scanDropCache.table 0).2 = 1
    ∧ scanDropCache.gcLeft0 = 1
    ∧ scanDropCache.gcLeftAfterPhase1 10 = 2
    ∧ ¬ (scanDropCache.gcLeftAfterPhase1 10 = 1 - 1) := by
  decide

/-- C5 amended: after phase 1 the working counter equals its initial value
`entries - (MaxEntries - gcMustRemoveEntries)` INCREMENTED by the number of
entries the scan removed (the code does `left -= scan(...)` and `scan`
returns minus the removed count), and `gc` returns the phase-1 state, running
no further phases, whenever this incremented `left` is `≤ 0`. -/
theorem gc_left_after_phase1 (lb : Cache) (now : Int) :
    lb.gcLeftAfterPhase1 now
      = lb.gcLeft0 + ((scanAux now gcScanEntries lb.table 0).2 : Int)
    ∧ (lb.gcLeftAfterPhase1 now ≤ 0 →
        lb.gc now = (lb.scanStep now gcScanEntries).1) := by
  constructor
  · simp only [Cache.gcLeftAfterPhase1, Cache.scanStep]
    omega
  · intro h
    simp only [Cache.gcLeftAfterPhase1] at h
    simp only [Cache.gc]
    split_ifs
    rfl

/-- Witness for `gc_left_after_phase1` on the empty cache at capacity 100,
where `left` after phase 1 is `0 - (100 - 100) - 0 = 0 ≤ 0`. -/
theorem gc_left_after_phase1_witness :
    Cache.gcLeftAfterPhase1 { maxEntries := 100, table := [], entries := 0 } 0 ≤ 0
    ∧ Cache.gc { maxEntries := 100, table := [], entries := 0 } 0
        = (Cache.scanStep { maxEntries := 100, table := [], entries := 0 } 0
            gcScanEntries).1 :=
  ⟨by decide,
    (gc_left_after_phase1 { maxEntries := 100, table := [], entries := 0 } 0).2
      (by decide)⟩

/-- C6 as stated is false on the code: with `MaxEntries = 1 <
gcMustRemoveEntries = 100` and two live entries, `gc` empties the table, and
`0 ≤ MaxEntries - gcMustRemoveEntries = -99` fails — the stated target is
unreachable when `MaxEntries < gcMustRemoveEntries`. -/
theorem gc_target_counterexample :
    overCapCache.maxEntries < overCapCache.entries
    ∧ (overCapCache.gc 0).entries = 0
    ∧ ¬ ((overCapCache.gc 0).entries
          ≤ overCapCache.maxEntries - gcMustRemoveEntries) := by
  decide

/-- C6 amended: whenever the live entry count exceeds `MaxEntries`, `gc`
terminates with `entries ≤ max (MaxEntries - gcMustRemoveEntries) 0` (the
stated target, clamped at the empty table); and `put` invokes `gc` only when
the count exceeds `MaxEntries` — otherwise `put` leaves exactly the
`putCore` state. -/
theorem gc_reaches_target (lb : Cache) (now : Int) (hInv : Inv lb)
    (hgt : lb.maxEntries < lb.entries) :
    (lb.gc now).entries ≤ max (lb.maxEntries - gcMustRemoveEntries) 0
    ∧ (∀ (lb2 : Cache) (k : Nat) (q l now2 : Int),
        (lb2.putCore k q l now2).2.entries ≤ (lb2.putCore k q l now2).2.maxEntries →
        (lb2.put k q l now2).2 = (lb2.putCore k q l now2).2) := by
  refine ⟨gc_bound lb now hInv hgt, ?_⟩
  intro lb2 k q l now2 hle
  simp only [Cache.put]
  split_ifs with hex hgt2
  · rfl
  · exact absurd hgt2 (by omega)
  · rfl

/-- Witness for `gc_reaches_target` on a two-entry cache with capacity 1. -/
theorem gc_reaches_target_witness :
    Inv overCapCache
    ∧ (overCapCache.gc 0).entries
        ≤ max (overCapCache.maxEntries - gcMustRemoveEntries) 0 :=
  ⟨by decide, (gc_reaches_target overCapCache 0 (by decide) (by decide)).1⟩

end LeakyBucket
